import Mathlib

/-!
Verification development for the vendored `portalocker` module at
`src/etlp-mpv-py-embed-win64/utils/portalocker.py`.

The definitions below are a shallow embedding of the module's locking core:
the exception taxonomy, the retry/timeout generator `LockBase._timeout_generator`,
`Lock.__init__` / `Lock.acquire` / `Lock.release`, the reentrant `RLock`,
`BoundedSemaphore.get_filename(s)` / `acquire` / `try_lock`, and the Windows
legacy backend fallback `MsvcrtLocker.unlock`.

Modelling conventions:
* Wall-clock readings from `time.perf_counter()` are an explicit sequence
  `clock : Nat -> Rat`; generator fuel bounds the loop so it is total, and every
  theorem quantifies over the fuel.
* The backend call `portalocker.lock(fh, flags)` performed by attempt number
  `k` of `Lock.acquire` is abstracted as `attempts k : Option Exc`
  (`none` = the OS lock was obtained, `some e` = the call raised `e`).
* File handles are identifiers (`Nat`); side effects of `Lock.acquire`
  (opening, lock attempts, truncation, closing, storing the handle) are
  recorded as an event trace in program order.
-/

namespace Portalocker

/-- Exception values of the module. `AlreadyLocked` is a subclass of
`LockException` in the source, so the `alreadyLocked*` and `lockException*`
constructors all belong to the `LockException` (LockFailed) class hierarchy;
`otherExc` stands for any exception outside that hierarchy (for example a raw
`OSError` escaping a custom locker). The `Wrap` constructors carry the wrapped
exception, mirroring `AlreadyLocked(exception)` and `LockException(exc)` in
`Lock.acquire`; the `Base` constructors are exceptions raised without a
wrapped cause. -/
inductive Exc where
  | alreadyLockedBase
  | lockExceptionBase
  | otherExc
  | alreadyLockedWrap (inner : Exc)
  | lockExceptionWrap (inner : Exc)
deriving DecidableEq, Repr

/-- Membership in the `LockException` class hierarchy: what the
`except LockException` clause of `Lock.acquire` catches. -/
def Exc.isLockException : Exc → Bool
  | .alreadyLockedBase => true
  | .lockExceptionBase => true
  | .otherExc => false
  | .alreadyLockedWrap _ => true
  | .lockExceptionWrap _ => true

/-- Membership in the `AlreadyLocked` subclass. -/
def Exc.isAlreadyLocked : Exc → Bool
  | .alreadyLockedBase => true
  | .alreadyLockedWrap _ => true
  | _ => false

/-- Coalescing of an optional argument against a stored default, as in
`coalesce(fail_when_locked, self.fail_when_locked)`. -/
def coalesceB (a : Option Bool) (b : Bool) : Bool :=
  a.getD b

/-! ## Retry/timeout engine: `LockBase._timeout_generator` -/

/-- Sleep duration computed after yielding index `i`:
`time.sleep(max(0.001, (i * f_check_interval) - since_start_time))`. -/
def sleepAmount (i : ℕ) (checkInterval elapsed : ℚ) : ℚ :=
  max (1 / 1000) (i * checkInterval - elapsed)

/-- Indices yielded by the `while` loop of `_timeout_generator`. Reading
`clock 0` is `start_time`; the loop condition guarding index `i + 1` reads
`clock (2 * i + 1)`, and the `since_start_time` reading taken after yielding
`i + 1` is `clock (2 * i + 2)`. The `fuel` argument bounds the iteration count
so the function is total. -/
def tgLoop (t : ℚ) (clock : ℕ → ℚ) : ℕ → ℕ → List ℕ
  | _, 0 => []
  | i, fuel + 1 =>
    if clock 0 + t > clock (2 * i + 1) then
      (i + 1) :: tgLoop t clock (i + 1) fuel
    else
      []

/-- Full sequence of yielded attempt indices: `yield 0` happens before
`start_time = time.perf_counter()` is read, then the timed loop runs. -/
def timeoutGenYields (t : ℚ) (clock : ℕ → ℚ) (fuel : ℕ) : List ℕ :=
  0 :: tgLoop t clock 0 fuel

/-- Sleep durations performed by the loop, parallel to the indices of
`tgLoop`: after yielding `i + 1` the generator sleeps
`max(0.001, (i + 1) * check_interval - since_start_time)`. -/
def tgSleeps (t c : ℚ) (clock : ℕ → ℚ) : ℕ → ℕ → List ℚ
  | _, 0 => []
  | i, fuel + 1 =>
    if clock 0 + t > clock (2 * i + 1) then
      sleepAmount (i + 1) c (clock (2 * i + 2) - clock 0) ::
        tgSleeps t c clock (i + 1) fuel
    else
      []

/-! ## `Lock` -/

/-- Observable events of `Lock.acquire`, recorded in program order. -/
inductive Event where
  | openFile (mode : String)
  | lockAttempt (k : ℕ)
  | closeFh
  | truncateFh
  | storeFh
deriving DecidableEq, Repr

/-- State of a `Lock` object: the stored handle (`self.fh`), the rewritten
open mode, the deferred-truncate flag and the stored `fail_when_locked`
default. -/
structure LockState where
  fh : Option ℕ
  mode : String
  truncate : Bool
  failWhenLocked : Bool
deriving DecidableEq, Repr

/-- Test `'w' in mode` from `Lock.__init__`. -/
def modeHasW (mode : String) : Bool :=
  mode.toList.contains 'w'

/-- The rewrite `mode.replace('w', 'a')` from `Lock.__init__`. -/
def rewriteMode (mode : String) : String :=
  String.mk (mode.toList.map fun ch => if ch = 'w' then 'a' else ch)

/-- Construction of a `Lock` (`Lock.__init__`): when the requested mode
contains `'w'` the stored mode is the rewrite with every `'w'` replaced by
`'a'` and the truncate flag is set; otherwise the mode is kept and the flag is
clear. No file is opened at construction time. -/
def Lock.ofMode (mode : String) (failWhenLocked : Bool) : LockState :=
  if modeHasW mode then
    { fh := none
      mode := rewriteMode mode
      truncate := true
      failWhenLocked := failWhenLocked }
  else
    { fh := none
      mode := mode
      truncate := false
      failWhenLocked := failWhenLocked }

/-- Result of the retry loop inside `Lock.acquire`: `proceed` means the loop
was left via `break` (or never entered), `stored e` means the iteration list
was exhausted with `exception = e` still pending, `failFast e` means the
`fail_when_locked` branch fired on `e`, and `hardError e` means an exception
outside the `LockException` hierarchy occurred. -/
inductive LoopResult where
  | proceed
  | stored (e : Exc)
  | failFast (e : Exc)
  | hardError (e : Exc)
deriving DecidableEq, Repr

/-- The `for _ in self._timeout_generator(...)` loop of `Lock.acquire`.
Attempt number `k` calls the backend (`attempts k`); on success the loop
breaks; on a `LockException`-class error it either fires the
`fail_when_locked` branch or stores the exception and continues with the next
yielded index; on any other exception it stops with `hardError`. -/
def acquireLoop (attempts : ℕ → Option Exc) (fwl : Bool) :
    List ℕ → ℕ → List Event × LoopResult
  | [], _ => ([], .proceed)
  | _ :: rest, k =>
    match attempts k with
    | none => ([.lockAttempt k], .proceed)
    | some e =>
      if e.isLockException then
        if fwl then
          ([.lockAttempt k], .failFast e)
        else
          match rest with
          | [] => ([.lockAttempt k], .stored e)
          | r :: rs =>
            let p := acquireLoop attempts fwl (r :: rs) (k + 1)
            (.lockAttempt k :: p.1, p.2)
      else
        ([.lockAttempt k], .hardError e)

/-- Result of `Lock.acquire`: the returned handle, or the exception that
propagated. -/
inductive AcquireOutcome where
  | handle (h : ℕ)
  | raised (e : Exc)
deriving DecidableEq, Repr

/-- Embedding of `Lock.acquire`. When a handle is already stored it is
returned as is. Otherwise the file is opened (`freshFh` is the new handle),
the retry loop runs over the yielded indices `retries`, and the outcome is
assembled exactly as in the source: on `break` the deferred truncate of
`_prepare_fh` runs and the handle is stored; on `fail_when_locked` the handle
is closed and `AlreadyLocked(exception)` is raised; on a non-`LockException`
error the handle is closed and `LockException(exc)` is raised; on exhaustion
the handle is closed and the stored exception is re-raised. -/
def Lock.acquire (st : LockState) (freshFh : ℕ) (retries : List ℕ)
    (attempts : ℕ → Option Exc) (fwlArg : Option Bool) :
    List Event × AcquireOutcome × LockState :=
  match st.fh with
  | some h => ([], .handle h, st)
  | none =>
    let fwl := coalesceB fwlArg st.failWhenLocked
    let p := acquireLoop attempts fwl retries 0
    let evs := Event.openFile st.mode :: p.1
    match p.2 with
    | .proceed =>
      (evs ++ (if st.truncate then [Event.truncateFh] else []) ++ [Event.storeFh],
        .handle freshFh, { st with fh := some freshFh })
    | .stored e =>
      (evs ++ [Event.closeFh], .raised e, st)
    | .failFast e =>
      (evs ++ [Event.closeFh], .raised (.alreadyLockedWrap e), st)
    | .hardError e =>
      (evs ++ [Event.closeFh], .raised (.lockExceptionWrap e), st)

/-- Embedding of `Lock.release`: when a handle is stored, unlock, close and
clear it; releasing while not held is a no-op. -/
def Lock.release (st : LockState) : LockState :=
  match st.fh with
  | some _ => { st with fh := none }
  | none => st

/-! ## `RLock` -/

/-- State of an `RLock`: the underlying `Lock` plus `self._acquire_count`. -/
structure RLockState where
  base : LockState
  acquireCount : ℕ
deriving DecidableEq, Repr

/-- Result of `RLock.acquire`; `assertFailed` models the
`assert fh is not None` firing when the count is positive but no handle is
stored (unreachable under the class invariant). -/
inductive ROutcome where
  | handle (h : ℕ)
  | raised (e : Exc)
  | assertFailed
deriving DecidableEq, Repr

/-- Embedding of `RLock.acquire`: with `self._acquire_count >= 1` the stored
handle is returned and the count incremented without touching the backend;
otherwise `Lock.acquire` runs, and the count is incremented only if it
returned normally. -/
def RLock.acquire (st : RLockState) (freshFh : ℕ) (retries : List ℕ)
    (attempts : ℕ → Option Exc) (fwlArg : Option Bool) :
    ROutcome × RLockState :=
  if 1 ≤ st.acquireCount then
    match st.base.fh with
    | some h => (.handle h, { st with acquireCount := st.acquireCount + 1 })
    | none => (.assertFailed, { st with acquireCount := st.acquireCount + 1 })
  else
    match Lock.acquire st.base freshFh retries attempts fwlArg with
    | (_, .handle h, base2) =>
      (.handle h, { base := base2, acquireCount := st.acquireCount + 1 })
    | (_, .raised e, base2) =>
      (.raised e, { base := base2, acquireCount := st.acquireCount })

/-- Result of `RLock.release`. -/
inductive ReleaseOutcome where
  | ok
  | usageError (msg : String)
deriving DecidableEq, Repr

/-- Embedding of `RLock.release`: a release at count 0 raises
`LockException('Cannot release more times than acquired')`; at count 1 the
underlying `Lock.release` runs and the count drops to 0; at higher counts only
the count is decremented. -/
def RLock.release (st : RLockState) : ReleaseOutcome × RLockState :=
  if st.acquireCount = 0 then
    (.usageError "Cannot release more times than acquired", st)
  else if st.acquireCount = 1 then
    (.ok, { base := Lock.release st.base, acquireCount := st.acquireCount - 1 })
  else
    (.ok, { st with acquireCount := st.acquireCount - 1 })

/-- Iterated `RLock.acquire`: `n` successive calls, keeping the state. -/
def rlockAcquireN (freshFh : ℕ) (retries : List ℕ) (attempts : ℕ → Option Exc)
    (fwlArg : Option Bool) : ℕ → RLockState → RLockState
  | 0, st => st
  | n + 1, st =>
    rlockAcquireN freshFh retries attempts fwlArg n
      (RLock.acquire st freshFh retries attempts fwlArg).2

/-- Iterated `RLock.release`: `n` successive calls, keeping the state. -/
def rlockReleaseN : ℕ → RLockState → RLockState
  | 0, st => st
  | n + 1, st => rlockReleaseN n (RLock.release st).2

/-! ## `BoundedSemaphore` -/

/-- Python's `'{number:02d}'.format(...)` field: decimal digits, zero-padded
on the left to a minimum width of two. -/
def pad2 (n : ℕ) : String :=
  if n < 10 then "0" ++ toString n else toString n

/-- The `pathlib.Path(directory) / fname` join, restricted to the plain cases
the semaphore uses (an empty directory yields the bare filename). -/
def pathJoin (directory fname : String) : String :=
  if directory = "" then fname else directory ++ "/" ++ fname

/-- Embedding of `BoundedSemaphore.get_filename` with the default pattern
`'{name}.{number:02d}.lock'`. -/
def getFilename (directory name : String) (number : ℕ) : String :=
  pathJoin directory (name ++ "." ++ pad2 number ++ ".lock")

/-- Embedding of `BoundedSemaphore.get_filenames`:
`[self.get_filename(n) for n in range(self.maximum)]`. -/
def getFilenames (directory name : String) (maximum : ℕ) : List String :=
  (List.range maximum).map (getFilename directory name)

/-- State of a `BoundedSemaphore` with the default filename pattern: the
capacity `maximum`, the name and directory, the stored `fail_when_locked`
default and the currently held slot (`self.lock`, identified by its slot
filename). -/
structure SemState where
  maximum : ℕ
  name : String
  directory : String
  failWhenLocked : Bool
  lock : Option String
deriving DecidableEq, Repr

/-- Embedding of `BoundedSemaphore.try_lock`: sweep the filenames in order;
for each one construct `Lock(filename, fail_when_locked=True)` and attempt it.
The oracle `acq f` abstracts that inner fail-fast exclusive acquire: `true`
means it returned a handle, `false` means it raised `AlreadyLocked`. The
first filename that locks is kept. -/
def semTryLock (acq : String → Bool) : List String → Option String
  | [] => none
  | f :: rest => if acq f then some f else semTryLock acq rest

/-- The retry loop of `BoundedSemaphore.acquire`: one full sweep per yielded
index `n`; `acq n` gives the slot-attempt outcomes during round `n`. -/
def semLoop (acq : ℕ → String → Bool) (filenames : List String) :
    List ℕ → Option (ℕ × String)
  | [] => none
  | n :: rest =>
    match semTryLock (acq n) filenames with
    | some f => some (n, f)
    | none => semLoop acq filenames rest

/-- Result of `BoundedSemaphore.acquire`: a held slot, `AlreadyLocked`
raised on exhaustion, the non-exceptional `None`, or the
`assert not self.lock` failure when called while already held. -/
inductive SemOutcome where
  | gotSlot (f : String)
  | raisedAlready
  | noSlot
  | assertError
deriving DecidableEq, Repr

/-- Embedding of `BoundedSemaphore.acquire`: require the unheld state, compute
the slot filenames via `get_filenames`, run one sweep per retry index, return
the first successful slot immediately; on exhaustion raise `AlreadyLocked`
when `coalesce(fail_when_locked, self.fail_when_locked)` holds and return
`None` otherwise. -/
def BoundedSemaphore.acquire (sem : SemState) (retries : List ℕ)
    (acq : ℕ → String → Bool) (fwlArg : Option Bool) : SemOutcome × SemState :=
  match sem.lock with
  | some _ => (.assertError, sem)
  | none =>
    match semLoop acq (getFilenames sem.directory sem.name sem.maximum)
        retries with
    | some (_, f) => (.gotSlot f, { sem with lock := some f })
    | none =>
      if coalesceB fwlArg sem.failWhenLocked then (.raisedAlready, sem)
      else (.noSlot, sem)

/-! ## Windows legacy backend: `MsvcrtLocker.unlock` -/

/-- An `OSError` as observed by `MsvcrtLocker.unlock`: its `errno` and
`strerror`. -/
structure OsErr where
  errno : ℤ
  strerror : String
deriving DecidableEq, Repr

/-- Outcome of the fallback `Win32Locker.unlock` call: success, a
`LockException` (carrying its `strerror`), or some other exception. -/
inductive W32UnlockResult where
  | ok
  | lockExc (strerror : String)
  | otherExc (msg : String)
deriving DecidableEq, Repr

/-- Result of `MsvcrtLocker.unlock`: success or a raised
`LockException(LOCK_FAILED, strerror, fh=...)`, identified by its message. -/
inductive UnlockResult where
  | ok
  | lockFailed (strerror : String)
deriving DecidableEq, Repr

/-- Embedding of `MsvcrtLocker.unlock`. The input `ms` is the outcome of
`msvcrt.locking(fd, LK_UNLCK, ...)` (`none` = success) and `w32` the outcome
the fallback `Win32Locker.unlock` would have. The first component of the
result records whether the fallback was actually issued. -/
def MsvcrtLocker.unlock (ms : Option OsErr) (w32 : W32UnlockResult) :
    Bool × UnlockResult :=
  match ms with
  | none => (false, .ok)
  | some exc =>
    if exc.errno = 13 then
      match w32 with
      | .ok => (true, .ok)
      | .lockExc s =>
        (true, .lockFailed ("msvcrt unlock failed (" ++ exc.strerror ++
          "), and win32 fallback failed (" ++ s ++ ")"))
      | .otherExc m =>
        (true, .lockFailed ("msvcrt unlock failed (" ++ exc.strerror ++
          "), and win32 fallback failed with unexpected error: " ++ m))
    else
      (false, .lockFailed exc.strerror)

/-! ## Lemmas about the retry/timeout generator -/

/-- Sleeps of the generator loop are exactly `sleepAmount` applied to each
yielded index, with the elapsed time read right after that yield. -/
theorem tgSleeps_eq_map (t c : ℚ) (clock : ℕ → ℚ) (fuel : ℕ) :
    ∀ i, tgSleeps t c clock i fuel =
      (tgLoop t clock i fuel).map fun k => sleepAmount k c (clock (2 * k) - clock 0) := by
  induction fuel with
  | zero => intro i; rfl
  | succ n ih =>
    intro i
    simp only [tgSleeps, tgLoop]
    by_cases h : clock 0 + t > clock (2 * i + 1)
    · rw [if_pos h, if_pos h, List.map_cons, ih (i + 1)]
      have h2 : 2 * (i + 1) = 2 * i + 2 := by ring
      rw [h2]
    · rw [if_neg h, if_neg h, List.map_nil]

/-- Every index yielded by the generator loop is a successor, and every loop
condition check from the starting iteration up to it saw a clock reading
strictly below `start_time + timeout`. -/
theorem mem_tgLoop (t : ℚ) (clock : ℕ → ℚ) (fuel : ℕ) :
    ∀ i k, k ∈ tgLoop t clock i fuel →
      ∃ j, k = j + 1 ∧ i ≤ j ∧
        ∀ m, i ≤ m → m ≤ j → clock (2 * m + 1) < clock 0 + t := by
  induction fuel with
  | zero => intro i k h; simp [tgLoop] at h
  | succ n ih =>
    intro i k h
    simp only [tgLoop] at h
    by_cases hc : clock 0 + t > clock (2 * i + 1)
    · rw [if_pos hc] at h
      rcases List.mem_cons.mp h with h1 | h2
      · refine ⟨i, h1, le_refl i, fun m hm1 hm2 => ?_⟩
        have hmi : m = i := le_antisymm hm2 hm1
        rw [hmi]
        exact hc
      · obtain ⟨j, hk, hij, hall⟩ := ih (i + 1) k h2
        refine ⟨j, hk, le_trans (Nat.le_succ i) hij, fun m hm1 hm2 => ?_⟩
        by_cases hmi : m = i
        · rw [hmi]; exact hc
        · exact hall m (Nat.lt_of_le_of_ne hm1 (Ne.symm hmi)) hm2
    · rw [if_neg hc] at h
      simp at h

/-- Claim C3: for every timeout `t >= 0` and check interval `c`, the retry
generator yields index 0 immediately (its head is 0 for every possible clock,
so no clock reading can influence it); each subsequent index `i >= 1` is
yielded only when the loop condition saw the current time strictly before
`start + t`; the sleep performed after yielding index `i` is
`max(0.001, i * c - elapsed_since_start)`; and once a loop condition check
sees the timeout elapsed, no further index is ever yielded. -/
theorem C3_retry_generator (t c : ℚ) (clock : ℕ → ℚ) (fuel : ℕ) (ht : 0 ≤ t) :
    (timeoutGenYields t clock fuel).head? = some 0
    ∧ (∀ i, (i + 1) ∈ timeoutGenYields t clock fuel →
        clock (2 * i + 1) < clock 0 + t)
    ∧ tgSleeps t c clock 0 fuel =
        (tgLoop t clock 0 fuel).map (fun k => sleepAmount k c (clock (2 * k) - clock 0))
    ∧ (∀ i j, clock 0 + t ≤ clock (2 * i + 1) → i ≤ j →
        (j + 1) ∉ timeoutGenYields t clock fuel) := by
  refine ⟨rfl, ?_, tgSleeps_eq_map t c clock fuel 0, ?_⟩
  · intro i hmem
    have h2 : (i + 1) ∈ tgLoop t clock 0 fuel := by
      rcases List.mem_cons.mp hmem with h | h
      · exact absurd h (by simp)
      · exact h
    obtain ⟨j, hk, _, hall⟩ := mem_tgLoop t clock fuel 0 (i + 1) h2
    have hji : j = i := by omega
    subst hji
    exact hall j (Nat.zero_le j) (le_refl j)
  · intro i j hto hij hmem
    have h2 : (j + 1) ∈ tgLoop t clock 0 fuel := by
      rcases List.mem_cons.mp hmem with h | h
      · exact absurd h (by simp)
      · exact h
    obtain ⟨j2, hk, _, hall⟩ := mem_tgLoop t clock fuel 0 (j + 1) h2
    have hjj : j2 = j := by omega
    subst hjj
    exact absurd (hall i (Nat.zero_le i) hij) (not_lt.mpr hto)

/-- Witness for C3 at `t = 1`, `c = 1`, a constant clock and fuel 2. -/
theorem C3_retry_generator_witness :
    (0 : ℚ) ≤ 1 ∧
    ((timeoutGenYields 1 (fun _ => (0 : ℚ)) 2).head? = some 0
    ∧ (∀ i, (i + 1) ∈ timeoutGenYields 1 (fun _ => (0 : ℚ)) 2 →
        (fun _ => (0 : ℚ)) (2 * i + 1) < (fun _ => (0 : ℚ)) 0 + 1)
    ∧ tgSleeps 1 1 (fun _ => (0 : ℚ)) 0 2 =
        (tgLoop 1 (fun _ => (0 : ℚ)) 0 2).map
          (fun k => sleepAmount k 1 ((fun _ => (0 : ℚ)) (2 * k) - (fun _ => (0 : ℚ)) 0))
    ∧ (∀ i j, (fun _ => (0 : ℚ)) 0 + 1 ≤ (fun _ => (0 : ℚ)) (2 * i + 1) → i ≤ j →
        (j + 1) ∉ timeoutGenYields 1 (fun _ => (0 : ℚ)) 2)) :=
  ⟨by norm_num, C3_retry_generator 1 1 (fun _ => 0) 2 (by norm_num)⟩

/-! ## Lemmas about `Lock.__init__` and the retry loop of `Lock.acquire` -/

/-- Mode strings rewritten by `Lock.__init__` contain no `'w'` anymore. -/
theorem modeHasW_rewriteMode (mode : String) : modeHasW (rewriteMode mode) = false := by
  have hl : (rewriteMode mode).toList
      = mode.toList.map fun ch => if ch = 'w' then 'a' else ch := rfl
  simp only [modeHasW, hl]
  rw [Bool.eq_false_iff]
  intro hcontains
  have hmem : 'w' ∈ mode.toList.map fun ch => if ch = 'w' then 'a' else ch := by
    simpa using hcontains
  rcases List.mem_map.mp hmem with ⟨c, _, hc⟩
  by_cases hcw : c = 'w'
  · rw [if_pos hcw] at hc
    exact absurd hc (by decide)
  · rw [if_neg hcw] at hc
    exact hcw hc

/-- Every event recorded by the retry loop is a lock attempt. -/
theorem acquireLoop_events_shape (attempts : ℕ → Option Exc) (fwl : Bool) :
    ∀ (l : List ℕ) (k : ℕ), ∀ ev ∈ (acquireLoop attempts fwl l k).1,
      ∃ m, ev = Event.lockAttempt m := by
  intro l
  induction l with
  | nil =>
    intro k ev h
    simp [acquireLoop] at h
  | cons x rest ih =>
    intro k ev h
    rw [acquireLoop] at h
    cases hA : attempts k with
    | none =>
      rw [hA] at h
      simp at h
      exact ⟨k, h⟩
    | some e =>
      rw [hA] at h
      dsimp only at h
      by_cases hle : e.isLockException = true
      · rw [if_pos hle] at h
        by_cases hf : fwl = true
        · rw [if_pos hf] at h
          simp at h
          exact ⟨k, h⟩
        · rw [if_neg hf] at h
          cases rest with
          | nil =>
            simp at h
            exact ⟨k, h⟩
          | cons r rs =>
            simp only at h
            rcases List.mem_cons.mp h with h1 | h2
            · exact ⟨k, h1⟩
            · exact ih (k + 1) ev h2
      · rw [if_neg hle] at h
        simp at h
        exact ⟨k, h⟩

/-- Unfolding equation of the retry loop: the backend call succeeded. -/
theorem acquireLoop_eq_none (attempts : ℕ → Option Exc) (fwl : Bool) (x : ℕ)
    (rest : List ℕ) (k : ℕ) (hA : attempts k = none) :
    acquireLoop attempts fwl (x :: rest) k = ([.lockAttempt k], .proceed) := by
  rw [acquireLoop, hA]

/-- Unfolding equation of the retry loop: a `LockException`-class error with
`fail_when_locked` set. -/
theorem acquireLoop_eq_fail (attempts : ℕ → Option Exc) (x : ℕ)
    (rest : List ℕ) (k : ℕ) (e : Exc) (hA : attempts k = some e)
    (hle : e.isLockException = true) :
    acquireLoop attempts true (x :: rest) k = ([.lockAttempt k], .failFast e) := by
  rw [acquireLoop, hA]
  dsimp only
  rw [if_pos hle]
  rfl

/-- Unfolding equation of the retry loop: a `LockException`-class error at
the final yielded index, with `fail_when_locked` off. -/
theorem acquireLoop_eq_stored (attempts : ℕ → Option Exc) (x : ℕ)
    (k : ℕ) (e : Exc) (hA : attempts k = some e)
    (hle : e.isLockException = true) :
    acquireLoop attempts false [x] k = ([.lockAttempt k], .stored e) := by
  rw [acquireLoop, hA]
  dsimp only
  rw [if_pos hle, if_neg Bool.false_ne_true]

/-- Unfolding equation of the retry loop: a `LockException`-class error with
further indices available and `fail_when_locked` off continues the loop. -/
theorem acquireLoop_eq_step (attempts : ℕ → Option Exc) (x r : ℕ)
    (rs : List ℕ) (k : ℕ) (e : Exc) (hA : attempts k = some e)
    (hle : e.isLockException = true) :
    acquireLoop attempts false (x :: r :: rs) k =
      (Event.lockAttempt k :: (acquireLoop attempts false (r :: rs) (k + 1)).1,
        (acquireLoop attempts false (r :: rs) (k + 1)).2) := by
  rw [acquireLoop, hA]
  dsimp only
  rw [if_pos hle, if_neg Bool.false_ne_true]

/-- Unfolding equation of the retry loop: an error outside the
`LockException` hierarchy stops the loop at once. -/
theorem acquireLoop_eq_hard (attempts : ℕ → Option Exc) (fwl : Bool) (x : ℕ)
    (rest : List ℕ) (k : ℕ) (e : Exc) (hA : attempts k = some e)
    (hle : e.isLockException = false) :
    acquireLoop attempts fwl (x :: rest) k = ([.lockAttempt k], .hardError e) := by
  rw [acquireLoop, hA]
  dsimp only
  rw [if_neg (by rw [hle]; exact Bool.false_ne_true)]

/-- When the retry loop of `Lock.acquire` leaves via `break` after at least
one iteration, its trace ends with a lock attempt whose backend call
succeeded. -/
theorem acquireLoop_proceed_last (attempts : ℕ → Option Exc) (fwl : Bool) :
    ∀ (l : List ℕ) (k : ℕ), l ≠ [] →
      (acquireLoop attempts fwl l k).2 = .proceed →
      ∃ evs m, (acquireLoop attempts fwl l k).1 = evs ++ [Event.lockAttempt m]
        ∧ attempts m = none := by
  intro l
  induction l with
  | nil => intro k hne _; exact absurd rfl hne
  | cons x rest ih =>
    intro k _ hres
    cases hA : attempts k with
    | none =>
      rw [acquireLoop_eq_none attempts fwl x rest k hA]
      exact ⟨[], k, rfl, hA⟩
    | some e =>
      by_cases hle : e.isLockException = true
      · by_cases hf : fwl = true
        · subst hf
          rw [acquireLoop_eq_fail attempts x rest k e hA hle] at hres
          exact absurd hres (by simp)
        · rw [Bool.not_eq_true] at hf
          subst hf
          cases rest with
          | nil =>
            rw [acquireLoop_eq_stored attempts x k e hA hle] at hres
            exact absurd hres (by simp)
          | cons r rs =>
            rw [acquireLoop_eq_step attempts x r rs k e hA hle] at hres ⊢
            obtain ⟨evs, m, hevs, hm⟩ := ih (k + 1) (by simp) hres
            exact ⟨Event.lockAttempt k :: evs, m, by rw [hevs]; rfl, hm⟩
      · rw [Bool.not_eq_true] at hle
        rw [acquireLoop_eq_hard attempts fwl x rest k e hA hle] at hres
        exact absurd hres (by simp)

/-- When every backend attempt in the window raises a `LockException`-class
error and `fail_when_locked` is off, the loop consumes every yielded index and
ends carrying the error observed at the final attempt. -/
theorem acquireLoop_allLockExc (attempts : ℕ → Option Exc) :
    ∀ (l : List ℕ) (k : ℕ), l ≠ [] →
      (∀ j, j < l.length →
        ∃ e, attempts (k + j) = some e ∧ e.isLockException = true) →
      (acquireLoop attempts false l k).1 =
        (List.range l.length).map (fun j => Event.lockAttempt (k + j))
      ∧ ∃ e, attempts (k + l.length - 1) = some e
          ∧ (acquireLoop attempts false l k).2 = .stored e := by
  intro l
  induction l with
  | nil => intro k hne _; exact absurd rfl hne
  | cons x rest ih =>
    intro k _ hall
    obtain ⟨e0, he0, hle0⟩ := hall 0 (by simp)
    rw [Nat.add_zero] at he0
    cases rest with
    | nil =>
      rw [acquireLoop_eq_stored attempts x k e0 he0 hle0]
      refine ⟨by simp [List.range_succ], e0, ?_, rfl⟩
      simpa using he0
    | cons r rs =>
      have hall2 : ∀ j, j < (r :: rs).length →
          ∃ e, attempts (k + 1 + j) = some e ∧ e.isLockException = true := by
        intro j hj
        have := hall (j + 1) (by simpa using Nat.succ_lt_succ hj)
        rwa [show k + (j + 1) = k + 1 + j by ring] at this
      obtain ⟨hevs, e1, he1, hres⟩ := ih (k + 1) (by simp) hall2
      rw [acquireLoop_eq_step attempts x r rs k e0 he0 hle0]
      constructor
      · dsimp only
        simp only [List.length_cons] at hevs ⊢
        rw [hevs, List.range_succ_eq_map (rs.length + 1), List.map_cons,
          List.map_map, Nat.add_zero]
        congr 1
        apply List.map_congr_left
        intro a _
        simp only [Function.comp_apply]
        congr 1
        omega
      · refine ⟨e1, ?_, hres⟩
        rwa [show k + 1 + (r :: rs).length - 1 = k + (x :: r :: rs).length - 1 by
          simp only [List.length_cons]; omega] at he1

/-- As long as every earlier backend attempt raised a `LockException`-class
error and `fail_when_locked` is off, attempt `m` is reached: its lock-attempt
event is in the loop trace. -/
theorem acquireLoop_reaches (attempts : ℕ → Option Exc) :
    ∀ (l : List ℕ) (k m : ℕ), m < l.length →
      (∀ j, j < m → ∃ e, attempts (k + j) = some e ∧ e.isLockException = true) →
      Event.lockAttempt (k + m) ∈ (acquireLoop attempts false l k).1 := by
  intro l
  induction l with
  | nil => intro k m hm _; simp at hm
  | cons x rest ih =>
    intro k m hm hall
    cases m with
    | zero =>
      rw [Nat.add_zero]
      cases hA : attempts k with
      | none => rw [acquireLoop_eq_none attempts false x rest k hA]; simp
      | some e =>
        by_cases hle : e.isLockException = true
        · cases rest with
          | nil => rw [acquireLoop_eq_stored attempts x k e hA hle]; simp
          | cons r rs => rw [acquireLoop_eq_step attempts x r rs k e hA hle]; simp
        · rw [Bool.not_eq_true] at hle
          rw [acquireLoop_eq_hard attempts false x rest k e hA hle]
          simp
    | succ m0 =>
      have hm0 : m0 < rest.length := by simpa using Nat.lt_of_succ_lt_succ hm
      obtain ⟨e0, he0, hle0⟩ := hall 0 (Nat.succ_pos m0)
      rw [Nat.add_zero] at he0
      cases rest with
      | nil => simp at hm0
      | cons r rs =>
        rw [acquireLoop_eq_step attempts x r rs k e0 he0 hle0]
        apply List.mem_cons_of_mem
        have hall2 : ∀ j, j < m0 →
            ∃ e, attempts (k + 1 + j) = some e ∧ e.isLockException = true := by
          intro j hj
          have := hall (j + 1) (Nat.succ_lt_succ hj)
          rwa [show k + (j + 1) = k + 1 + j by ring] at this
        have := ih (k + 1) m0 hm0 hall2
        rwa [show k + 1 + m0 = k + (m0 + 1) by ring] at this

/-- When attempt `m` raises an error outside the `LockException` hierarchy
after `LockException`-class failures only, the loop stops right there: the
trace is exactly the attempts up to `m` and the result is `hardError`. -/
theorem acquireLoop_hardError (attempts : ℕ → Option Exc) :
    ∀ (l : List ℕ) (k m : ℕ), m < l.length →
      (∀ j, j < m → ∃ e, attempts (k + j) = some e ∧ e.isLockException = true) →
      ∀ e0, attempts (k + m) = some e0 → e0.isLockException = false →
      (acquireLoop attempts false l k).1 =
        (List.range (m + 1)).map (fun j => Event.lockAttempt (k + j))
      ∧ (acquireLoop attempts false l k).2 = .hardError e0 := by
  intro l
  induction l with
  | nil => intro k m hm _; simp at hm
  | cons x rest ih =>
    intro k m hm hall e0 he0 hle0
    cases m with
    | zero =>
      rw [Nat.add_zero] at he0
      rw [acquireLoop_eq_hard attempts false x rest k e0 he0 hle0]
      exact ⟨by simp [List.range_succ], rfl⟩
    | succ m0 =>
      have hm0 : m0 < rest.length := by simpa using Nat.lt_of_succ_lt_succ hm
      obtain ⟨e1, he1, hle1⟩ := hall 0 (Nat.succ_pos m0)
      rw [Nat.add_zero] at he1
      cases rest with
      | nil => simp at hm0
      | cons r rs =>
        rw [acquireLoop_eq_step attempts x r rs k e1 he1 hle1]
        have hall2 : ∀ j, j < m0 →
            ∃ e, attempts (k + 1 + j) = some e ∧ e.isLockException = true := by
          intro j hj
          have := hall (j + 1) (Nat.succ_lt_succ hj)
          rwa [show k + (j + 1) = k + 1 + j by ring] at this
        have he0b : attempts (k + 1 + m0) = some e0 := by
          rwa [show k + 1 + m0 = k + (m0 + 1) by ring]
        obtain ⟨hevs, hres⟩ := ih (k + 1) m0 hm0 hall2 e0 he0b hle0
        refine ⟨?_, hres⟩
        dsimp only
        rw [hevs, List.range_succ_eq_map (m0 + 1), List.map_cons,
          List.map_map, Nat.add_zero]
        congr 1
        apply List.map_congr_left
        intro a _
        simp only [Function.comp_apply]
        congr 1
        omega

/-- An `AlreadyLocked` exception belongs to the `LockException` hierarchy. -/
theorem isLockException_of_isAlreadyLocked (e : Exc)
    (h : e.isAlreadyLocked = true) : e.isLockException = true := by
  cases e <;> simp_all [Exc.isAlreadyLocked, Exc.isLockException]

/-- No truncate event can come from the retry loop itself. -/
theorem no_truncate_in_loop (attempts : ℕ → Option Exc) (fwl : Bool)
    (l : List ℕ) (k : ℕ) :
    Event.truncateFh ∉ (acquireLoop attempts fwl l k).1 := by
  intro hmem
  obtain ⟨m, hm⟩ := acquireLoop_events_shape attempts fwl l k Event.truncateFh hmem
  exact absurd hm (by simp)

/-- Claim C7: a `Lock` object already in the held state returns the identical
stored handle from a further `acquire` call: no file is opened, no backend
lock call is issued (the event trace is empty) and the state is unchanged. -/
theorem C7_idempotent_reacquire (st : LockState) (h : ℕ) (hfh : st.fh = some h)
    (freshFh : ℕ) (retries : List ℕ) (attempts : ℕ → Option Exc)
    (fwlArg : Option Bool) :
    Lock.acquire st freshFh retries attempts fwlArg = ([], .handle h, st) := by
  rw [Lock.acquire, hfh]

/-- Witness for C7 at a concrete held lock. -/
theorem C7_idempotent_reacquire_witness :
    (⟨some 4, "a", false, false⟩ : LockState).fh = some 4 ∧
    Lock.acquire ⟨some 4, "a", false, false⟩ 9 [0, 1] (fun _ => none) none
      = ([], .handle 4, ⟨some 4, "a", false, false⟩) :=
  ⟨rfl, C7_idempotent_reacquire ⟨some 4, "a", false, false⟩ 4 rfl 9 [0, 1]
    (fun _ => none) none⟩

/-- Claim C6: with `fail_when_locked` resolving true, a first backend attempt
that fails with `AlreadyLocked` makes `acquire` close the handle and raise
`AlreadyLocked` immediately: the trace holds exactly one lock attempt and then
the close, no further retry index is consumed no matter how many remain, and
the lock state is unchanged. -/
theorem C6_fail_when_locked_immediate (st : LockState) (freshFh : ℕ)
    (i : ℕ) (rest : List ℕ) (attempts : ℕ → Option Exc) (fwlArg : Option Bool)
    (hun : st.fh = none)
    (hfwl : coalesceB fwlArg st.failWhenLocked = true)
    (e : Exc) (h0 : attempts 0 = some e) (hal : e.isAlreadyLocked = true) :
    Lock.acquire st freshFh (i :: rest) attempts fwlArg =
      ([Event.openFile st.mode, Event.lockAttempt 0, Event.closeFh],
        .raised (.alreadyLockedWrap e), st) := by
  have hle : e.isLockException = true := isLockException_of_isAlreadyLocked e hal
  rw [Lock.acquire, hun]
  dsimp only
  rw [hfwl, acquireLoop_eq_fail attempts i rest 0 e h0 hle]
  rfl

/-- Witness for C6: three retry indices are available but only one attempt is
made. -/
theorem C6_fail_when_locked_immediate_witness :
    (⟨none, "a", false, true⟩ : LockState).fh = none ∧
    coalesceB none (⟨none, "a", false, true⟩ : LockState).failWhenLocked = true ∧
    (fun _ : ℕ => some Exc.alreadyLockedBase) 0 = some Exc.alreadyLockedBase ∧
    Exc.alreadyLockedBase.isAlreadyLocked = true ∧
    Lock.acquire ⟨none, "a", false, true⟩ 9 (0 :: [1, 2])
        (fun _ => some Exc.alreadyLockedBase) none =
      ([Event.openFile "a", Event.lockAttempt 0, Event.closeFh],
        .raised (.alreadyLockedWrap Exc.alreadyLockedBase),
        ⟨none, "a", false, true⟩) :=
  ⟨rfl, rfl, rfl, rfl,
    C6_fail_when_locked_immediate ⟨none, "a", false, true⟩ 9 0 [1, 2]
      (fun _ => some Exc.alreadyLockedBase) none rfl rfl
      Exc.alreadyLockedBase rfl rfl⟩

/-- Claim C10: starting unheld, whenever `Lock.acquire` ends raising an error
(fail-fast `AlreadyLocked`, a wrapped locking failure, or the last stored
error on exhaustion), the lock state is returned unchanged with `fh` still
absent, and the trace is the open, some lock attempts only, and the close of
the transient handle as the final action before the error propagates — so a
subsequent `acquire` starts fresh from the unheld state. -/
theorem C10_error_leaves_unheld (st : LockState) (freshFh : ℕ)
    (retries : List ℕ) (attempts : ℕ → Option Exc) (fwlArg : Option Bool)
    (hun : st.fh = none) (e : Exc)
    (hres : (Lock.acquire st freshFh retries attempts fwlArg).2.1 = .raised e) :
    (Lock.acquire st freshFh retries attempts fwlArg).2.2 = st
    ∧ (Lock.acquire st freshFh retries attempts fwlArg).2.2.fh = none
    ∧ ∃ evs1, (Lock.acquire st freshFh retries attempts fwlArg).1 =
        Event.openFile st.mode :: evs1 ++ [Event.closeFh]
      ∧ ∀ ev ∈ evs1, ∃ k, ev = Event.lockAttempt k := by
  rw [Lock.acquire, hun] at hres ⊢
  dsimp only at hres ⊢
  generalize hpair : acquireLoop attempts (coalesceB fwlArg st.failWhenLocked)
      retries 0 = q0 at hres ⊢
  obtain ⟨evs0, res0⟩ := q0
  have hshape : ∀ ev ∈ evs0, ∃ k, ev = Event.lockAttempt k := by
    have hs := acquireLoop_events_shape attempts
      (coalesceB fwlArg st.failWhenLocked) retries 0
    rw [hpair] at hs
    exact hs
  dsimp only at hres ⊢
  cases res0 with
  | proceed => exact absurd hres (by simp)
  | stored e2 => exact ⟨rfl, hun, evs0, rfl, hshape⟩
  | failFast e2 => exact ⟨rfl, hun, evs0, rfl, hshape⟩
  | hardError e2 => exact ⟨rfl, hun, evs0, rfl, hshape⟩

/-- Witness for C10: two contended attempts, then the stored error is
re-raised after closing. -/
theorem C10_error_leaves_unheld_witness :
    (⟨none, "a", false, false⟩ : LockState).fh = none ∧
    (Lock.acquire ⟨none, "a", false, false⟩ 9 [0, 1]
        (fun _ => some Exc.alreadyLockedBase) none).2.1 =
      .raised Exc.alreadyLockedBase ∧
    ((Lock.acquire ⟨none, "a", false, false⟩ 9 [0, 1]
        (fun _ => some Exc.alreadyLockedBase) none).2.2 =
        ⟨none, "a", false, false⟩
    ∧ (Lock.acquire ⟨none, "a", false, false⟩ 9 [0, 1]
        (fun _ => some Exc.alreadyLockedBase) none).2.2.fh = none
    ∧ ∃ evs1, (Lock.acquire ⟨none, "a", false, false⟩ 9 [0, 1]
          (fun _ => some Exc.alreadyLockedBase) none).1 =
        Event.openFile "a" :: evs1 ++ [Event.closeFh]
      ∧ ∀ ev ∈ evs1, ∃ k, ev = Event.lockAttempt k) :=
  ⟨rfl, rfl,
    C10_error_leaves_unheld ⟨none, "a", false, false⟩ 9 [0, 1]
      (fun _ => some Exc.alreadyLockedBase) none rfl
      Exc.alreadyLockedBase rfl⟩

/-- From the unheld state with the truncate flag clear, `Lock.acquire` never
truncates. -/
theorem acquire_no_truncate (st : LockState) (hun : st.fh = none)
    (htrunc : st.truncate = false) (freshFh : ℕ) (retries : List ℕ)
    (attempts : ℕ → Option Exc) (fwlArg : Option Bool) :
    Event.truncateFh ∉ (Lock.acquire st freshFh retries attempts fwlArg).1 := by
  intro hmem
  rw [Lock.acquire, hun] at hmem
  dsimp only at hmem
  generalize hpair : acquireLoop attempts (coalesceB fwlArg st.failWhenLocked)
      retries 0 = q0 at hmem
  obtain ⟨evs0, res0⟩ := q0
  have hnt : Event.truncateFh ∉ evs0 := by
    intro hx
    have hs := acquireLoop_events_shape attempts
      (coalesceB fwlArg st.failWhenLocked) retries 0
    rw [hpair] at hs
    obtain ⟨m, hm⟩ := hs Event.truncateFh hx
    exact absurd hm (by simp)
  dsimp only at hmem
  cases res0 with
  | proceed =>
    rw [htrunc] at hmem
    simp at hmem
    exact hnt hmem
  | stored e2 =>
    simp at hmem
    exact hnt hmem
  | failFast e2 =>
    simp at hmem
    exact hnt hmem
  | hardError e2 =>
    simp at hmem
    exact hnt hmem

/-- Claim C2: a requested mode containing `'w'` is stored for the actual open
with every `'w'` replaced by `'a'` (so the stored mode never contains `'w'`),
the truncate flag records exactly whether a `'w'` was requested, and the
truncation to 0 bytes happens only after the OS lock was obtained: whenever a
truncate event appears in the trace of `acquire`, the trace consists of the
open, lock attempts of which the last succeeded, and only then the truncate
followed immediately by the handle store. A lock whose mode contains no `'w'`
never truncates. -/
theorem C2_truncate_only_after_lock (mode : String) (fwl : Bool)
    (freshFh : ℕ) (retries : List ℕ) (attempts : ℕ → Option Exc)
    (fwlArg : Option Bool) (hr : retries ≠ []) :
    ((Lock.ofMode mode fwl).mode =
      if modeHasW mode then rewriteMode mode else mode)
    ∧ ((Lock.ofMode mode fwl).truncate = modeHasW mode)
    ∧ modeHasW (Lock.ofMode mode fwl).mode = false
    ∧ (Event.truncateFh ∈
        (Lock.acquire (Lock.ofMode mode fwl) freshFh retries attempts fwlArg).1 →
        ∃ evs1 m,
          (Lock.acquire (Lock.ofMode mode fwl) freshFh retries attempts fwlArg).1
            = Event.openFile (Lock.ofMode mode fwl).mode ::
              (evs1 ++ [Event.lockAttempt m, Event.truncateFh, Event.storeFh])
          ∧ attempts m = none)
    ∧ (modeHasW mode = false →
        Event.truncateFh ∉
          (Lock.acquire (Lock.ofMode mode fwl) freshFh retries attempts fwlArg).1) := by
  have hofm : (Lock.ofMode mode fwl).mode =
      if modeHasW mode then rewriteMode mode else mode := by
    by_cases h : modeHasW mode
    · simp [Lock.ofMode, h]
    · simp [Lock.ofMode, h]
  have hoft : (Lock.ofMode mode fwl).truncate = modeHasW mode := by
    by_cases h : modeHasW mode
    · simp [Lock.ofMode, h]
    · simp [Lock.ofMode, h]
  have hoff : (Lock.ofMode mode fwl).fh = none := by
    by_cases h : modeHasW mode
    · simp [Lock.ofMode, h]
    · simp [Lock.ofMode, h]
  refine ⟨hofm, hoft, ?_, ?_, ?_⟩
  · rw [hofm]
    by_cases h : modeHasW mode
    · rw [if_pos h]
      exact modeHasW_rewriteMode mode
    · rw [if_neg h]
      exact (Bool.not_eq_true _).mp h
  · intro htr
    by_cases htrunc : (Lock.ofMode mode fwl).truncate = true
    · rw [Lock.acquire, hoff] at htr ⊢
      dsimp only at htr ⊢
      generalize hpair : acquireLoop attempts
          (coalesceB fwlArg (Lock.ofMode mode fwl).failWhenLocked) retries 0
          = q0 at htr ⊢
      obtain ⟨evs0, res0⟩ := q0
      have hnt : Event.truncateFh ∉ evs0 := by
        intro hx
        have hs := acquireLoop_events_shape attempts
          (coalesceB fwlArg (Lock.ofMode mode fwl).failWhenLocked) retries 0
        rw [hpair] at hs
        obtain ⟨m, hm⟩ := hs Event.truncateFh hx
        exact absurd hm (by simp)
      dsimp only at htr ⊢
      cases res0 with
      | proceed =>
        have hq : (acquireLoop attempts
            (coalesceB fwlArg (Lock.ofMode mode fwl).failWhenLocked)
            retries 0).2 = .proceed := by
          rw [hpair]
        obtain ⟨evs1, m, hevs, hm⟩ := acquireLoop_proceed_last attempts
          (coalesceB fwlArg (Lock.ofMode mode fwl).failWhenLocked) retries 0 hr hq
        have hevs0 : evs0 = evs1 ++ [Event.lockAttempt m] := by
          rw [hpair] at hevs
          exact hevs
        refine ⟨evs1, m, ?_, hm⟩
        rw [htrunc, hevs0]
        simp
      | stored e2 =>
        simp at htr
        exact absurd htr hnt
      | failFast e2 =>
        simp at htr
        exact absurd htr hnt
      | hardError e2 =>
        simp at htr
        exact absurd htr hnt
    · rw [Bool.not_eq_true] at htrunc
      exact absurd htr (acquire_no_truncate (Lock.ofMode mode fwl) hoff htrunc
        freshFh retries attempts fwlArg)
  · intro hw
    exact acquire_no_truncate (Lock.ofMode mode fwl) hoff (hoft.trans hw)
      freshFh retries attempts fwlArg

/-- Witness for C2 at mode `"w"` with an immediately successful lock. -/
theorem C2_truncate_only_after_lock_witness :
    ([0] : List ℕ) ≠ [] ∧
    (((Lock.ofMode "w" false).mode =
      if modeHasW "w" then rewriteMode "w" else "w")
    ∧ ((Lock.ofMode "w" false).truncate = modeHasW "w")
    ∧ modeHasW (Lock.ofMode "w" false).mode = false
    ∧ (Event.truncateFh ∈
        (Lock.acquire (Lock.ofMode "w" false) 9 [0]
          (fun _ => none) none).1 →
        ∃ evs1 m,
          (Lock.acquire (Lock.ofMode "w" false) 9 [0]
            (fun _ => none) none).1
            = Event.openFile (Lock.ofMode "w" false).mode ::
              (evs1 ++ [Event.lockAttempt m, Event.truncateFh, Event.storeFh])
          ∧ (fun _ : ℕ => (none : Option Exc)) m = none)
    ∧ (modeHasW "w" = false →
        Event.truncateFh ∉
          (Lock.acquire (Lock.ofMode "w" false) 9 [0]
            (fun _ => none) none).1)) :=
  ⟨by simp, C2_truncate_only_after_lock "w" false 9 [0] (fun _ => none) none
    (by simp)⟩

/-- Claim C1 is refuted on the code: here the backend fails at attempt 0 with
a plain `LockException` — a LockFailed-class error that is not
`AlreadyLocked` — while a further retry index is available and
`fail_when_locked` is off. `acquire` does not close and re-raise immediately:
it consumes retry index 1 (a second lock attempt is in the trace) and only
after exhaustion closes the handle and re-raises the stored error. -/
theorem C1_counterexample :
    Exc.lockExceptionBase.isLockException = true
    ∧ Exc.lockExceptionBase.isAlreadyLocked = false
    ∧ Lock.acquire ⟨none, "a", false, false⟩ 9 [0, 1]
        (fun _ => some Exc.lockExceptionBase) none =
      ([Event.openFile "a", Event.lockAttempt 0, Event.lockAttempt 1,
          Event.closeFh],
        .raised Exc.lockExceptionBase, ⟨none, "a", false, false⟩) :=
  ⟨rfl, rfl, rfl⟩

/-- Claim C1 as amended: with `fail_when_locked` off, `Lock.acquire` treats
every `LockFailed`-class (`LockException`) error alike, whether or not it is
`AlreadyLocked`: the error is stored and the loop continues to the next retry
index, and on exhaustion the handle is closed and the last stored error is
re-raised. Only an error outside the `LockException` hierarchy causes the
immediate close-and-re-raise, wrapped in a `LockFailed`-class error, with no
further retry index consumed. -/
theorem C1_lockfailed_is_retried (st : LockState) (freshFh : ℕ)
    (retries : List ℕ) (attempts : ℕ → Option Exc) (fwlArg : Option Bool)
    (hun : st.fh = none) (hfwl : coalesceB fwlArg st.failWhenLocked = false) :
    (∀ k, k + 1 < retries.length →
      (∀ j, j ≤ k → ∃ e, attempts j = some e ∧ e.isLockException = true) →
      Event.lockAttempt (k + 1) ∈
        (Lock.acquire st freshFh retries attempts fwlArg).1)
    ∧ (retries ≠ [] →
      (∀ j, j < retries.length →
        ∃ e, attempts j = some e ∧ e.isLockException = true) →
      ∀ e, attempts (retries.length - 1) = some e →
        (Lock.acquire st freshFh retries attempts fwlArg).2.1 = .raised e)
    ∧ (∀ m, m < retries.length →
      (∀ j, j < m → ∃ e, attempts j = some e ∧ e.isLockException = true) →
      ∀ e0, attempts m = some e0 → e0.isLockException = false →
      (Lock.acquire st freshFh retries attempts fwlArg).2.1 =
          .raised (.lockExceptionWrap e0)
      ∧ (Lock.acquire st freshFh retries attempts fwlArg).1 =
          Event.openFile st.mode ::
            ((List.range (m + 1)).map (fun j => Event.lockAttempt j)
              ++ [Event.closeFh])) := by
  refine ⟨?_, ?_, ?_⟩
  · intro k hk hall
    have hall2 : ∀ j, j < k + 1 →
        ∃ e, attempts (0 + j) = some e ∧ e.isLockException = true := by
      intro j hj
      rw [Nat.zero_add]
      exact hall j (Nat.lt_succ_iff.mp hj)
    have hmem0 := acquireLoop_reaches attempts retries 0 (k + 1) hk hall2
    rw [Nat.zero_add] at hmem0
    rw [Lock.acquire, hun]
    dsimp only
    rw [hfwl]
    generalize hpair : acquireLoop attempts false retries 0 = q0 at hmem0 ⊢
    obtain ⟨evs0, res0⟩ := q0
    dsimp only at hmem0 ⊢
    cases res0 <;> simp [hmem0]
  · intro hne hall e he
    have hall2 : ∀ j, j < retries.length →
        ∃ e2, attempts (0 + j) = some e2 ∧ e2.isLockException = true := by
      intro j hj
      rw [Nat.zero_add]
      exact hall j hj
    obtain ⟨hevs, e2, he2, hres⟩ :=
      acquireLoop_allLockExc attempts retries 0 hne hall2
    rw [Nat.zero_add] at he2
    have hee : e2 = e := Option.some.inj (he2.symm.trans he)
    rw [hee] at hres
    rw [Lock.acquire, hun]
    dsimp only
    rw [hfwl]
    generalize hpair : acquireLoop attempts false retries 0 = q0 at hres ⊢
    obtain ⟨evs0, res0⟩ := q0
    dsimp only at hres ⊢
    subst hres
    rfl
  · intro m hm hall e0 he0 hle0
    have hall2 : ∀ j, j < m →
        ∃ e, attempts (0 + j) = some e ∧ e.isLockException = true := by
      intro j hj
      rw [Nat.zero_add]
      exact hall j hj
    have he0b : attempts (0 + m) = some e0 := by
      rw [Nat.zero_add]
      exact he0
    obtain ⟨hevs, hres⟩ :=
      acquireLoop_hardError attempts retries 0 m hm hall2 e0 he0b hle0
    rw [Lock.acquire, hun]
    dsimp only
    rw [hfwl]
    generalize hpair : acquireLoop attempts false retries 0 = q0 at hevs hres ⊢
    obtain ⟨evs0, res0⟩ := q0
    dsimp only at hevs hres ⊢
    subst hres
    subst hevs
    refine ⟨rfl, ?_⟩
    dsimp only
    simp only [Nat.zero_add]
    rfl

/-- Witness for the amended C1: a plain `LockException` at every attempt over
two retry indices; both indices are consumed and the stored error re-raised.
-/
theorem C1_lockfailed_is_retried_witness :
    (⟨none, "a", false, false⟩ : LockState).fh = none ∧
    coalesceB none (⟨none, "a", false, false⟩ : LockState).failWhenLocked
      = false ∧
    ((∀ k, k + 1 < ([0, 1] : List ℕ).length →
      (∀ j, j ≤ k → ∃ e, (fun _ : ℕ => some Exc.lockExceptionBase) j = some e
        ∧ e.isLockException = true) →
      Event.lockAttempt (k + 1) ∈
        (Lock.acquire ⟨none, "a", false, false⟩ 9 [0, 1]
          (fun _ => some Exc.lockExceptionBase) none).1)
    ∧ (([0, 1] : List ℕ) ≠ [] →
      (∀ j, j < ([0, 1] : List ℕ).length →
        ∃ e, (fun _ : ℕ => some Exc.lockExceptionBase) j = some e
          ∧ e.isLockException = true) →
      ∀ e, (fun _ : ℕ => some Exc.lockExceptionBase)
          (([0, 1] : List ℕ).length - 1) = some e →
        (Lock.acquire ⟨none, "a", false, false⟩ 9 [0, 1]
          (fun _ => some Exc.lockExceptionBase) none).2.1 = .raised e)
    ∧ (∀ m, m < ([0, 1] : List ℕ).length →
      (∀ j, j < m → ∃ e, (fun _ : ℕ => some Exc.lockExceptionBase) j = some e
        ∧ e.isLockException = true) →
      ∀ e0, (fun _ : ℕ => some Exc.lockExceptionBase) m = some e0 →
        e0.isLockException = false →
      (Lock.acquire ⟨none, "a", false, false⟩ 9 [0, 1]
          (fun _ => some Exc.lockExceptionBase) none).2.1 =
          .raised (.lockExceptionWrap e0)
      ∧ (Lock.acquire ⟨none, "a", false, false⟩ 9 [0, 1]
          (fun _ => some Exc.lockExceptionBase) none).1 =
          Event.openFile (⟨none, "a", false, false⟩ : LockState).mode ::
            ((List.range (m + 1)).map (fun j => Event.lockAttempt j)
              ++ [Event.closeFh]))) :=
  ⟨rfl, rfl,
    C1_lockfailed_is_retried ⟨none, "a", false, false⟩ 9 [0, 1]
      (fun _ => some Exc.lockExceptionBase) none rfl rfl⟩

/-! ## Lemmas about `RLock` -/

/-- Nested `RLock.acquire`: with positive depth the stored handle is returned
and only the counter moves. -/
theorem rlock_acquire_nested (st : RLockState) (h : ℕ)
    (hfh : st.base.fh = some h) (hc : 1 ≤ st.acquireCount) (freshFh : ℕ)
    (retries : List ℕ) (attempts : ℕ → Option Exc) (fwlArg : Option Bool) :
    RLock.acquire st freshFh retries attempts fwlArg =
      (.handle h, { st with acquireCount := st.acquireCount + 1 }) := by
  rw [RLock.acquire, if_pos hc, hfh]

/-- First `RLock.acquire` from the unheld state with an immediately
successful backend attempt. -/
theorem rlock_acquire_fresh (st : RLockState) (hc : st.acquireCount = 0)
    (hfh : st.base.fh = none) (freshFh : ℕ) (i : ℕ) (rest : List ℕ)
    (attempts : ℕ → Option Exc) (fwlArg : Option Bool)
    (h0 : attempts 0 = none) :
    RLock.acquire st freshFh (i :: rest) attempts fwlArg =
      (.handle freshFh,
        { base := { st.base with fh := some freshFh }, acquireCount := 1 }) := by
  rw [RLock.acquire, if_neg (by omega)]
  have hlk : Lock.acquire st.base freshFh (i :: rest) attempts fwlArg =
      ((Event.openFile st.base.mode :: [Event.lockAttempt 0])
          ++ (if st.base.truncate then [Event.truncateFh] else [])
          ++ [Event.storeFh],
        .handle freshFh, { st.base with fh := some freshFh }) := by
    rw [Lock.acquire, hfh]
    dsimp only
    rw [acquireLoop_eq_none attempts (coalesceB fwlArg st.base.failWhenLocked)
      i rest 0 h0]
  rw [hlk, hc]

/-- `RLock.release` at depth 0 raises the usage error. -/
theorem rlock_release_zero (st : RLockState) (hc : st.acquireCount = 0) :
    RLock.release st =
      (.usageError "Cannot release more times than acquired", st) := by
  rw [RLock.release, if_pos hc]

/-- `RLock.release` at depth 1 releases the underlying lock. -/
theorem rlock_release_one (st : RLockState) (hc : st.acquireCount = 1) :
    RLock.release st =
      (.ok, { base := Lock.release st.base, acquireCount := 0 }) := by
  rw [RLock.release, if_neg (by omega), if_pos hc, hc]

/-- `RLock.release` at depth at least 2 only decrements the counter. -/
theorem rlock_release_many (st : RLockState) (hc : 2 ≤ st.acquireCount) :
    RLock.release st = (.ok, { st with acquireCount := st.acquireCount - 1 }) := by
  rw [RLock.release, if_neg (by omega), if_neg (by omega)]

/-- Iterated nested acquires add to the depth and leave the base alone. -/
theorem rlockAcquireN_nested (freshFh : ℕ) (retries : List ℕ)
    (attempts : ℕ → Option Exc) (fwlArg : Option Bool) (h : ℕ) :
    ∀ (n : ℕ) (st : RLockState), st.base.fh = some h → 1 ≤ st.acquireCount →
      rlockAcquireN freshFh retries attempts fwlArg n st =
        { st with acquireCount := st.acquireCount + n } := by
  intro n
  induction n with
  | zero =>
    intro st hfh hc
    simp [rlockAcquireN]
  | succ k ih =>
    intro st hfh hc
    rw [rlockAcquireN, rlock_acquire_nested st h hfh hc]
    dsimp only
    rw [ih { st with acquireCount := st.acquireCount + 1 } hfh
      (Nat.le_add_left 1 st.acquireCount)]
    dsimp only
    have harith : st.acquireCount + 1 + k = st.acquireCount + (k + 1) := by omega
    rw [harith]

/-- From the fresh state, `n ≥ 1` acquires hold the fresh handle at depth
`n`. -/
theorem rlockAcquireN_from_fresh (freshFh : ℕ) (i : ℕ) (rest : List ℕ)
    (attempts : ℕ → Option Exc) (fwlArg : Option Bool) (h0 : attempts 0 = none) :
    ∀ (n : ℕ), 1 ≤ n → ∀ (st0 : RLockState), st0.acquireCount = 0 →
      st0.base.fh = none →
      rlockAcquireN freshFh (i :: rest) attempts fwlArg n st0 =
        { base := { st0.base with fh := some freshFh }, acquireCount := n } := by
  intro n
  induction n with
  | zero => intro hn; omega
  | succ k ih =>
    intro _ st0 hc0 hf0
    rw [rlockAcquireN, rlock_acquire_fresh st0 hc0 hf0 freshFh i rest attempts
      fwlArg h0]
    dsimp only
    cases Nat.eq_zero_or_pos k with
    | inl hk0 =>
      subst hk0
      rw [rlockAcquireN]
    | inr hkpos =>
      rw [rlockAcquireN_nested freshFh (i :: rest) attempts fwlArg freshFh k
        { base := { st0.base with fh := some freshFh }, acquireCount := 1 }
        rfl (Nat.le_refl 1)]
      dsimp only
      have harith : 1 + k = k + 1 := by omega
      rw [harith]

/-- `n` releases from depth `n ≥ 1` with a held handle end fully released. -/
theorem rlockReleaseN_all :
    ∀ (n : ℕ) (st : RLockState) (h : ℕ), st.acquireCount = n → 1 ≤ n →
      st.base.fh = some h →
      rlockReleaseN n st =
        { base := { st.base with fh := none }, acquireCount := 0 } := by
  intro n
  induction n with
  | zero => intro st h _ hn; omega
  | succ k ih =>
    intro st h hcount _ hfh
    rw [rlockReleaseN]
    cases Nat.eq_zero_or_pos k with
    | inl hk0 =>
      subst hk0
      rw [rlock_release_one st hcount]
      dsimp only
      rw [rlockReleaseN, Lock.release, hfh]
    | inr hkpos =>
      rw [rlock_release_many st (by omega)]
      dsimp only
      exact ih { st with acquireCount := st.acquireCount - 1 } h
        (by show st.acquireCount - 1 = k; omega) (by omega) hfh

/-- Claim C5: for an `RLock` at depth `d`, acquire with `d ≥ 1` returns the
existing handle and increments `d` with no backend call; release with `d ≥ 2`
only decrements `d`, leaving the underlying lock held; release at `d = 1`
releases the underlying `Lock`, clearing its handle, and sets `d = 0`;
release at `d = 0` raises the usage error `Cannot release more times than
acquired`; and `n` acquires from fresh followed by `n` releases leave the
resource unlocked while the `(n+1)`-th release raises the usage error. -/
theorem C5_rlock_depth (freshFh : ℕ) (i : ℕ) (rest : List ℕ)
    (attempts : ℕ → Option Exc) (fwlArg : Option Bool)
    (h0 : attempts 0 = none) (n : ℕ) (hn : 1 ≤ n)
    (st0 : RLockState) (hc0 : st0.acquireCount = 0) (hf0 : st0.base.fh = none) :
    (∀ (st : RLockState) (h : ℕ), st.base.fh = some h → 1 ≤ st.acquireCount →
      RLock.acquire st freshFh (i :: rest) attempts fwlArg =
        (.handle h, { st with acquireCount := st.acquireCount + 1 }))
    ∧ (∀ st : RLockState, 2 ≤ st.acquireCount →
      RLock.release st = (.ok, { st with acquireCount := st.acquireCount - 1 }))
    ∧ (∀ st : RLockState, st.acquireCount = 1 →
      RLock.release st =
        (.ok, { base := Lock.release st.base, acquireCount := 0 })
      ∧ (Lock.release st.base).fh = none)
    ∧ (∀ st : RLockState, st.acquireCount = 0 →
      RLock.release st =
        (.usageError "Cannot release more times than acquired", st))
    ∧ ((rlockAcquireN freshFh (i :: rest) attempts fwlArg n st0).acquireCount
        = n
      ∧ (rlockAcquireN freshFh (i :: rest) attempts fwlArg n st0).base.fh
        = some freshFh
      ∧ rlockReleaseN n (rlockAcquireN freshFh (i :: rest) attempts fwlArg n st0)
        = { base := { st0.base with fh := none }, acquireCount := 0 }
      ∧ (RLock.release (rlockReleaseN n
          (rlockAcquireN freshFh (i :: rest) attempts fwlArg n st0))).1
        = .usageError "Cannot release more times than acquired") := by
  have hacq := rlockAcquireN_from_fresh freshFh i rest attempts fwlArg h0 n hn
    st0 hc0 hf0
  refine ⟨?_, ?_, ?_, ?_, ?_, ?_, ?_, ?_⟩
  · intro st h hfh hc
    exact rlock_acquire_nested st h hfh hc freshFh (i :: rest) attempts fwlArg
  · intro st hc
    exact rlock_release_many st hc
  · intro st hc
    refine ⟨rlock_release_one st hc, ?_⟩
    rw [Lock.release]
    cases hx : st.base.fh with
    | none => exact hx
    | some y => rfl
  · intro st hc
    exact rlock_release_zero st hc
  · rw [hacq]
  · rw [hacq]
  · rw [hacq]
    exact rlockReleaseN_all n
      { base := { st0.base with fh := some freshFh }, acquireCount := n }
      freshFh rfl hn rfl
  · rw [hacq,
      rlockReleaseN_all n
        { base := { st0.base with fh := some freshFh }, acquireCount := n }
        freshFh rfl hn rfl,
      rlock_release_zero _ rfl]

/-- Witness for C5 with `n = 3` acquires from a fresh reentrant lock. -/
theorem C5_rlock_depth_witness :
    (fun _ : ℕ => (none : Option Exc)) 0 = none ∧
    (1 : ℕ) ≤ 3 ∧
    (⟨⟨none, "a", false, false⟩, 0⟩ : RLockState).acquireCount = 0 ∧
    (⟨⟨none, "a", false, false⟩, 0⟩ : RLockState).base.fh = none ∧
    ((∀ (st : RLockState) (h : ℕ), st.base.fh = some h → 1 ≤ st.acquireCount →
      RLock.acquire st 7 (0 :: [1]) (fun _ => none) none =
        (.handle h, { st with acquireCount := st.acquireCount + 1 }))
    ∧ (∀ st : RLockState, 2 ≤ st.acquireCount →
      RLock.release st = (.ok, { st with acquireCount := st.acquireCount - 1 }))
    ∧ (∀ st : RLockState, st.acquireCount = 1 →
      RLock.release st =
        (.ok, { base := Lock.release st.base, acquireCount := 0 })
      ∧ (Lock.release st.base).fh = none)
    ∧ (∀ st : RLockState, st.acquireCount = 0 →
      RLock.release st =
        (.usageError "Cannot release more times than acquired", st))
    ∧ ((rlockAcquireN 7 (0 :: [1]) (fun _ => none) none 3
          ⟨⟨none, "a", false, false⟩, 0⟩).acquireCount = 3
      ∧ (rlockAcquireN 7 (0 :: [1]) (fun _ => none) none 3
          ⟨⟨none, "a", false, false⟩, 0⟩).base.fh = some 7
      ∧ rlockReleaseN 3 (rlockAcquireN 7 (0 :: [1]) (fun _ => none) none 3
          ⟨⟨none, "a", false, false⟩, 0⟩)
        = { base := { (⟨⟨none, "a", false, false⟩, 0⟩ : RLockState).base
              with fh := none }, acquireCount := 0 }
      ∧ (RLock.release (rlockReleaseN 3 (rlockAcquireN 7 (0 :: [1])
          (fun _ => none) none 3 ⟨⟨none, "a", false, false⟩, 0⟩))).1
        = .usageError "Cannot release more times than acquired")) :=
  ⟨rfl, by omega, rfl, rfl,
    C5_rlock_depth 7 0 [1] (fun _ => none) none rfl 3 (by omega)
      ⟨⟨none, "a", false, false⟩, 0⟩ rfl rfl⟩

/-! ## Lemmas about `BoundedSemaphore` -/

/-- A successful sweep returns the first filename whose fail-fast lock
succeeded: everything before it failed. -/
theorem semTryLock_some (acq : String → Bool) :
    ∀ (fs : List String) (f : String), semTryLock acq fs = some f →
      ∃ pre post, fs = pre ++ f :: post ∧ acq f = true
        ∧ ∀ g ∈ pre, acq g = false := by
  intro fs
  induction fs with
  | nil => intro f h; simp [semTryLock] at h
  | cons x rest ih =>
    intro f h
    rw [semTryLock] at h
    by_cases hx : acq x = true
    · rw [if_pos hx] at h
      obtain rfl := Option.some.inj h
      exact ⟨[], rest, rfl, hx, by simp⟩
    · rw [if_neg hx] at h
      obtain ⟨pre, post, hsplit, hf, hpre⟩ := ih f h
      refine ⟨x :: pre, post, by rw [hsplit]; rfl, hf, ?_⟩
      intro g hg
      rcases List.mem_cons.mp hg with rfl | hgp
      · exact (Bool.not_eq_true _).mp hx
      · exact hpre g hgp

/-- A sweep over filenames that all fail returns no slot. -/
theorem semTryLock_none (acq : String → Bool) :
    ∀ fs : List String, (∀ g ∈ fs, acq g = false) →
      semTryLock acq fs = none := by
  intro fs
  induction fs with
  | nil => intro _; rfl
  | cons x rest ih =>
    intro hall
    have hx : acq x = false := hall x (List.mem_cons_self x rest)
    rw [semTryLock, if_neg (by rw [hx]; exact Bool.false_ne_true)]
    exact ih fun g hg => hall g (List.mem_cons_of_mem x hg)

/-- A successful semaphore retry loop succeeds in the first round in which
any slot locks, all earlier rounds having swept without success. -/
theorem semLoop_some (acq : ℕ → String → Bool) (filenames : List String) :
    ∀ (retries : List ℕ) (n : ℕ) (f : String),
      semLoop acq filenames retries = some (n, f) →
      ∃ pre post, retries = pre ++ n :: post
        ∧ (∀ m ∈ pre, semTryLock (acq m) filenames = none)
        ∧ semTryLock (acq n) filenames = some f := by
  intro retries
  induction retries with
  | nil => intro n f h; simp [semLoop] at h
  | cons r rest ih =>
    intro n f h
    rw [semLoop] at h
    cases ht : semTryLock (acq r) filenames with
    | some g =>
      rw [ht] at h
      dsimp only at h
      simp only [Option.some.injEq, Prod.mk.injEq] at h
      obtain ⟨rfl, rfl⟩ := h
      exact ⟨[], rest, rfl, by simp, ht⟩
    | none =>
      rw [ht] at h
      dsimp only at h
      obtain ⟨pre, post, hsplit, hpre, hn⟩ := ih n f h
      refine ⟨r :: pre, post, by rw [hsplit]; rfl, ?_, hn⟩
      intro m hm
      rcases List.mem_cons.mp hm with rfl | hmp
      · exact ht
      · exact hpre m hmp

/-- The semaphore retry loop is exhausted when every round sweeps without
success. -/
theorem semLoop_none (acq : ℕ → String → Bool) (filenames : List String) :
    ∀ retries : List ℕ,
      (∀ n ∈ retries, semTryLock (acq n) filenames = none) →
      semLoop acq filenames retries = none := by
  intro retries
  induction retries with
  | nil => intro _; rfl
  | cons r rest ih =>
    intro hall
    rw [semLoop, hall r (List.mem_cons_self r rest)]
    dsimp only
    exact ih fun n hn => hall n (List.mem_cons_of_mem r hn)

/-- One sweep only consults the attempt oracle on the swept filenames. -/
theorem semTryLock_congr (p q : String → Bool) :
    ∀ fs : List String, (∀ g ∈ fs, p g = q g) →
      semTryLock p fs = semTryLock q fs := by
  intro fs
  induction fs with
  | nil => intro _; rfl
  | cons x rest ih =>
    intro hall
    rw [semTryLock, semTryLock, hall x (List.mem_cons_self x rest),
      ih fun g hg => hall g (List.mem_cons_of_mem x hg)]

/-- The retry loop only consults the attempt oracle on the swept
filenames. -/
theorem semLoop_congr (acq1 acq2 : ℕ → String → Bool)
    (filenames : List String)
    (h : ∀ n g, g ∈ filenames → acq1 n g = acq2 n g) :
    ∀ retries : List ℕ,
      semLoop acq1 filenames retries = semLoop acq2 filenames retries := by
  intro retries
  induction retries with
  | nil => rfl
  | cons r rest ih =>
    rw [semLoop, semLoop,
      semTryLock_congr (acq1 r) (acq2 r) filenames fun g hg => h r g hg, ih]

/-- Claim C4: from the unheld state, `BoundedSemaphore.acquire` performs one
in-order sweep of the slot filenames per retry index, each slot attempted
through a fail-fast exclusive `Lock` (abstracted by `acq`): when a slot is
returned it is stored as held, it is the first filename to lock inside its
sweep, and its round is the first with any success; when every sweep of every
retry index fails, `acquire` raises `AlreadyLocked` if
`coalesce(fail_when_locked, self.fail_when_locked)` resolves true and returns
the no-slot value `None` otherwise, leaving the state unheld. -/
theorem C4_semaphore_acquire (sem : SemState) (retries : List ℕ)
    (acq : ℕ → String → Bool) (fwlArg : Option Bool)
    (hun : sem.lock = none) :
    (∀ f st2,
      BoundedSemaphore.acquire sem retries acq fwlArg = (.gotSlot f, st2) →
      st2 = { sem with lock := some f }
      ∧ ∃ n pre post, retries = pre ++ n :: post
        ∧ (∀ m ∈ pre, semTryLock (acq m)
            (getFilenames sem.directory sem.name sem.maximum) = none)
        ∧ ∃ pre2 post2,
          getFilenames sem.directory sem.name sem.maximum = pre2 ++ f :: post2
          ∧ acq n f = true ∧ ∀ g ∈ pre2, acq n g = false)
    ∧ ((∀ n ∈ retries, ∀ g ∈ getFilenames sem.directory sem.name sem.maximum,
          acq n g = false) →
      BoundedSemaphore.acquire sem retries acq fwlArg =
        ((if coalesceB fwlArg sem.failWhenLocked then .raisedAlready
          else .noSlot), sem)) := by
  constructor
  · intro f st2 heq
    rw [BoundedSemaphore.acquire, hun] at heq
    dsimp only at heq
    generalize hl : semLoop acq (getFilenames sem.directory sem.name
      sem.maximum) retries = q at heq
    cases q with
    | none =>
      dsimp only at heq
      by_cases hb : coalesceB fwlArg sem.failWhenLocked = true
      · rw [if_pos hb] at heq
        exact absurd heq (by simp)
      · rw [if_neg hb] at heq
        exact absurd heq (by simp)
    | some p =>
      obtain ⟨n, g⟩ := p
      dsimp only at heq
      simp only [Prod.mk.injEq, SemOutcome.gotSlot.injEq] at heq
      obtain ⟨rfl, hst⟩ := heq
      obtain ⟨pre, post, hsplit, hpre, hn⟩ :=
        semLoop_some acq (getFilenames sem.directory sem.name sem.maximum)
          retries n g hl
      obtain ⟨pre2, post2, hsplit2, hf, hpre2⟩ :=
        semTryLock_some (acq n) (getFilenames sem.directory sem.name
          sem.maximum) g hn
      exact ⟨hst.symm, n, pre, post, hsplit, hpre, pre2, post2, hsplit2,
        hf, hpre2⟩
  · intro hall
    have hnone := semLoop_none acq
      (getFilenames sem.directory sem.name sem.maximum) retries
      fun n hn => semTryLock_none (acq n) _ fun g hg => hall n hn g hg
    rw [BoundedSemaphore.acquire, hun]
    dsimp only
    rw [hnone]
    dsimp only
    by_cases hb : coalesceB fwlArg sem.failWhenLocked = true
    · rw [if_pos hb, if_pos hb]
    · rw [if_neg hb, if_neg hb]

/-- Witness for C4: capacity 2, slot 0 already locked throughout, slot 1
free in round 0. -/
theorem C4_semaphore_acquire_witness :
    (⟨2, "s", "", true, none⟩ : SemState).lock = none ∧
    ((∀ f st2,
      BoundedSemaphore.acquire ⟨2, "s", "", true, none⟩ [0]
          (fun _ g => g = "s.01.lock") none = (.gotSlot f, st2) →
      st2 = { (⟨2, "s", "", true, none⟩ : SemState) with lock := some f }
      ∧ ∃ n pre post, ([0] : List ℕ) = pre ++ n :: post
        ∧ (∀ m ∈ pre, semTryLock ((fun _ g => decide (g = "s.01.lock")) m)
            (getFilenames "" "s" 2) = none)
        ∧ ∃ pre2 post2,
          getFilenames "" "s" 2 = pre2 ++ f :: post2
          ∧ decide (f = "s.01.lock") = true
          ∧ ∀ g ∈ pre2, decide (g = "s.01.lock") = false)
    ∧ ((∀ n ∈ ([0] : List ℕ), ∀ g ∈ getFilenames "" "s" 2,
          decide (g = "s.01.lock") = false) →
      BoundedSemaphore.acquire ⟨2, "s", "", true, none⟩ [0]
          (fun _ g => g = "s.01.lock") none =
        ((if coalesceB none (⟨2, "s", "", true, none⟩ : SemState).failWhenLocked
          then .raisedAlready else .noSlot),
          ⟨2, "s", "", true, none⟩))) :=
  ⟨rfl, C4_semaphore_acquire ⟨2, "s", "", true, none⟩ [0]
    (fun _ g => g = "s.01.lock") none rfl⟩

/-- Claim C9: the default slot-filename list is a pure deterministic function
of name, directory and capacity. It holds exactly `maximum` entries; the entry
of slot index `i` (ascending order) is the directory-joined
`name ++ "." ++ pad2 i ++ ".lock"`, the default pattern with its index field
zero-padded to two digits (exactly two characters for every index below 100);
two semaphores built from identical parameters compute identical lists; and
the default `acquire` scan consults slot filenames only through this
unshuffled list — its outcome is unchanged by altering the attempt oracle
outside the list. -/
theorem C9_slot_filenames (name directory : String) (maximum : ℕ) :
    (getFilenames directory name maximum).length = maximum
    ∧ (∀ i, i < maximum →
        (getFilenames directory name maximum)[i]? =
          some (pathJoin directory (name ++ "." ++ pad2 i ++ ".lock")))
    ∧ (∀ i, i < 100 → (pad2 i).length = 2)
    ∧ (∀ sem1 sem2 : SemState, sem1.name = name → sem2.name = name →
        sem1.directory = directory → sem2.directory = directory →
        sem1.maximum = maximum → sem2.maximum = maximum →
        getFilenames sem1.directory sem1.name sem1.maximum =
          getFilenames sem2.directory sem2.name sem2.maximum)
    ∧ (∀ (sem : SemState) (retries : List ℕ) (acq1 acq2 : ℕ → String → Bool)
        (fwlArg : Option Bool),
        (∀ n g, g ∈ getFilenames sem.directory sem.name sem.maximum →
          acq1 n g = acq2 n g) →
        BoundedSemaphore.acquire sem retries acq1 fwlArg =
          BoundedSemaphore.acquire sem retries acq2 fwlArg) := by
  refine ⟨by simp [getFilenames], ?_, ?_, ?_, ?_⟩
  · intro i hi
    simp [getFilenames, getFilename, List.getElem?_map, List.getElem?_range, hi]
  · intro i hi
    interval_cases i <;> decide
  · intro sem1 sem2 h1 h2 h3 h4 h5 h6
    rw [h1, h2, h3, h4, h5, h6]
  · intro sem retries acq1 acq2 fwlArg hagree
    rw [BoundedSemaphore.acquire, BoundedSemaphore.acquire,
      semLoop_congr acq1 acq2
        (getFilenames sem.directory sem.name sem.maximum) hagree retries]

/-! ## `MsvcrtLocker.unlock` -/

/-- Claim C8: in the Windows legacy backend's unlock, a legacy
(`msvcrt.locking`) failure with errno 13 (permission denied) triggers the
fallback unlock through the Win32 range-lock backend; if that fallback also
fails with a `LockException`, a single composite `LockFailed` error is raised
whose message names both the legacy failure and the fallback failure; a
legacy failure with any other errno raises `LockFailed` with the legacy
error text, without attempting the fallback. -/
theorem C8_msvcrt_unlock_fallback (ms : OsErr) (w32 : W32UnlockResult) :
    (ms.errno = 13 →
      (MsvcrtLocker.unlock (some ms) w32).1 = true
      ∧ (∀ s, w32 = .lockExc s →
        (MsvcrtLocker.unlock (some ms) w32).2 =
          .lockFailed ("msvcrt unlock failed (" ++ ms.strerror ++
            "), and win32 fallback failed (" ++ s ++ ")"))
      ∧ (∀ m, w32 = .otherExc m →
        (MsvcrtLocker.unlock (some ms) w32).2 =
          .lockFailed ("msvcrt unlock failed (" ++ ms.strerror ++
            "), and win32 fallback failed with unexpected error: " ++ m)))
    ∧ (ms.errno ≠ 13 →
      MsvcrtLocker.unlock (some ms) w32 = (false, .lockFailed ms.strerror)) := by
  constructor
  · intro h13
    refine ⟨?_, ?_, ?_⟩
    · rw [MsvcrtLocker.unlock.eq_def]
      dsimp only
      rw [if_pos h13]
      cases w32 <;> rfl
    · intro s hw
      subst hw
      rw [MsvcrtLocker.unlock.eq_def]
      dsimp only
      rw [if_pos h13]
    · intro m hw
      subst hw
      rw [MsvcrtLocker.unlock.eq_def]
      dsimp only
      rw [if_pos h13]
  · intro h13
    rw [MsvcrtLocker.unlock.eq_def]
    dsimp only
    rw [if_neg h13]

end Portalocker